import Mathlib

/-!
Verification development for the gemmi_tools sampling engine.

The repository's own code (src/gemmi_tools/include/gemmi_tools/sample.hpp and
the pybind11 binding file) is embedded directly.  The gemmi library pieces it
calls (gemmi::UnitCell orthogonalize/fractionalize, gemmi::Grid at/set and
interpolate_value) are not part of the repository sources, so they are
modelled from the specification, over exact rationals.
-/

/-- Modelled from the spec: a Position / fractional position is a plain
3-component real vector; we use exact rationals in place of doubles. -/
structure Vec3 where
  x : ℚ
  y : ℚ
  z : ℚ
deriving DecidableEq, Repr

def Vec3.add (p q : Vec3) : Vec3 := ⟨p.x + q.x, p.y + q.y, p.z + q.z⟩

/-- Modelled from the spec: a 3x3 real matrix, as used for the unit cell's
orthogonalization and fractionalization transforms (gemmi's Mat33 is not in
the repository sources). -/
structure Mat3 where
  m00 : ℚ
  m01 : ℚ
  m02 : ℚ
  m10 : ℚ
  m11 : ℚ
  m12 : ℚ
  m20 : ℚ
  m21 : ℚ
  m22 : ℚ
deriving DecidableEq, Repr

def Mat3.mulVec (M : Mat3) (v : Vec3) : Vec3 :=
  ⟨M.m00 * v.x + M.m01 * v.y + M.m02 * v.z,
   M.m10 * v.x + M.m11 * v.y + M.m12 * v.z,
   M.m20 * v.x + M.m21 * v.y + M.m22 * v.z⟩

def Mat3.det (M : Mat3) : ℚ :=
  M.m00 * (M.m11 * M.m22 - M.m12 * M.m21)
  - M.m01 * (M.m10 * M.m22 - M.m12 * M.m20)
  + M.m02 * (M.m10 * M.m21 - M.m11 * M.m20)

/-- Adjugate-over-determinant inverse of a 3x3 matrix (entries are the
cofactors transposed, each divided by the determinant). -/
def Mat3.inv (M : Mat3) : Mat3 :=
  let d := M.det
  ⟨(M.m11 * M.m22 - M.m12 * M.m21) / d,
   -(M.m01 * M.m22 - M.m02 * M.m21) / d,
   (M.m01 * M.m12 - M.m02 * M.m11) / d,
   -(M.m10 * M.m22 - M.m12 * M.m20) / d,
   (M.m00 * M.m22 - M.m02 * M.m20) / d,
   -(M.m00 * M.m12 - M.m02 * M.m10) / d,
   (M.m10 * M.m21 - M.m11 * M.m20) / d,
   -(M.m00 * M.m21 - M.m01 * M.m20) / d,
   (M.m00 * M.m11 - M.m01 * M.m10) / d⟩

def Mat3.identity : Mat3 := ⟨1, 0, 0, 0, 1, 0, 0, 0, 1⟩

/-- Modelled from the spec: gemmi's UnitCell (unitcell.hpp is not in the
repository sources).  The spec describes it as six cell parameters plus a
derived 3x3 orthogonalization matrix and its inverse, the fractionalization
matrix; we model the derived orthogonalization matrix directly, since the
trigonometric derivation from (a, b, c, alpha, beta, gamma) is what the
missing gemmi code computes.  The fractionalization matrix is derived as the
inverse, as the spec states the two are mutually inverse. -/
structure UnitCell where
  orth : Mat3
deriving DecidableEq, Repr

/-- A validly constructed cell is one whose orthogonalization matrix is
invertible; degenerate parameter sets (zero axis, collapsed angles) are
exactly those producing a singular matrix and are rejected at construction
per the spec. -/
def UnitCell.valid (c : UnitCell) : Prop := c.orth.det ≠ 0

def UnitCell.orthogonalize (c : UnitCell) (f : Vec3) : Vec3 := c.orth.mulVec f

def UnitCell.fractionalize (c : UnitCell) (p : Vec3) : Vec3 := c.orth.inv.mulVec p

/-- The identity unit cell (cubic cell of side 1 with orthogonal axes). -/
def cellI : UnitCell := ⟨Mat3.identity⟩

theorem Mat3.mulVec_add (M : Mat3) (u v : Vec3) :
    M.mulVec (u.add v) = (M.mulVec u).add (M.mulVec v) := by
  simp only [Mat3.mulVec, Vec3.add, Vec3.mk.injEq]
  refine ⟨by ring, by ring, by ring⟩

theorem Mat3.inv_mulVec_cancel (M : Mat3) (v : Vec3) (hd : M.det ≠ 0) :
    M.inv.mulVec (M.mulVec v) = v := by
  obtain ⟨x, y, z⟩ := v
  have hd' : M.m00 * (M.m11 * M.m22 - M.m12 * M.m21)
      - M.m01 * (M.m10 * M.m22 - M.m12 * M.m20)
      + M.m02 * (M.m10 * M.m21 - M.m11 * M.m20) ≠ 0 := hd
  simp only [Mat3.inv, Mat3.mulVec, Mat3.det] at *
  refine Vec3.mk.injEq .. ▸ ⟨?_, ?_, ?_⟩ <;> field_simp <;> ring

/-- C8: for all fractional coordinates f and every validly constructed
UnitCell, fractionalize (orthogonalize f) = f.  In this exact rational model
the round trip is exact, which implies the spec's 1e-9 relative tolerance. -/
theorem round_trip_fractionalize_orthogonalize (c : UnitCell) (f : Vec3)
    (h : c.valid) : c.fractionalize (c.orthogonalize f) = f :=
  Mat3.inv_mulVec_cancel c.orth f h

/-- Witness for C8 at a concrete non-orthogonal cell and point. -/
theorem round_trip_fractionalize_orthogonalize_witness :
    UnitCell.valid ⟨⟨4, 1, 0, 0, 3, 1, 0, 0, 5⟩⟩ ∧
      UnitCell.fractionalize ⟨⟨4, 1, 0, 0, 3, 1, 0, 0, 5⟩⟩
        (UnitCell.orthogonalize ⟨⟨4, 1, 0, 0, 3, 1, 0, 0, 5⟩⟩ ⟨1/2, 1/3, 7⟩)
        = ⟨1/2, 1/3, 7⟩ := by
  have h : UnitCell.valid ⟨⟨4, 1, 0, 0, 3, 1, 0, 0, 5⟩⟩ := by
    norm_num [UnitCell.valid, Mat3.det]
  exact ⟨h, round_trip_fractionalize_orthogonalize ⟨⟨4, 1, 0, 0, 3, 1, 0, 0, 5⟩⟩
    ⟨1/2, 1/3, 7⟩ h⟩

/-- Modelled from the spec: gemmi's Grid<T> (grid.hpp is not in the
repository sources): three positive integer extents, a dense sequence of
nu*nv*nw scalar samples in the fixed order given by the spec's offset
formula, and the owning UnitCell.  Scalars are exact rationals. -/
structure Grid where
  cell : UnitCell
  nu : ℕ
  nv : ℕ
  nw : ℕ
  hnu : 0 < nu
  hnv : 0 < nv
  hnw : 0 < nw
  data : List ℚ
  hdata : data.length = nu * nv * nw

/-- Storage offset of logical index (u, v, w): the spec's fixed bijection
((u mod nu)*nv + (v mod nv))*nw + (w mod nw), with each integer index first
reduced modulo its axis extent (Int.emod, giving a non-negative residue). -/
def Grid.index (G : Grid) (u v w : ℤ) : ℕ :=
  ((u % (G.nu : ℤ)).toNat * G.nv + (v % (G.nv : ℤ)).toNat) * G.nw
    + (w % (G.nw : ℤ)).toNat

theorem emod_toNat_lt (u : ℤ) (n : ℕ) (h : 0 < n) : (u % (n : ℤ)).toNat < n := by
  have h1 : 0 ≤ u % (n : ℤ) := Int.emod_nonneg u (by exact_mod_cast h.ne')
  have h2 : u % (n : ℤ) < n := Int.emod_lt_of_pos u (by exact_mod_cast h)
  omega

theorem Grid.index_lt (G : Grid) (u v w : ℤ) :
    G.index u v w < G.nu * G.nv * G.nw := by
  have ha := emod_toNat_lt u G.nu G.hnu
  have hb := emod_toNat_lt v G.nv G.hnv
  have hc := emod_toNat_lt w G.nw G.hnw
  unfold Grid.index
  set A := (u % (G.nu : ℤ)).toNat
  set B := (v % (G.nv : ℤ)).toNat
  set C := (w % (G.nw : ℤ)).toNat
  have h1 : A * G.nv + B < G.nu * G.nv := by
    calc A * G.nv + B < A * G.nv + G.nv := by omega
    _ = (A + 1) * G.nv := by ring
    _ ≤ G.nu * G.nv := Nat.mul_le_mul_right _ (by omega)
  calc (A * G.nv + B) * G.nw + C < ((A * G.nv + B) + 1) * G.nw := by
        have he : ((A * G.nv + B) + 1) * G.nw = (A * G.nv + B) * G.nw + G.nw := by
          ring
        omega
  _ ≤ (G.nu * G.nv) * G.nw := Nat.mul_le_mul_right _ (by omega)

/-- Modelled from the spec: Grid element read access; indices are arbitrary
integers, reduced modulo extents before storage access, so the read is
always in bounds. -/
def Grid.at_ (G : Grid) (u v w : ℤ) : ℚ :=
  G.data.getD (G.index u v w) 0

/-- Modelled from the spec: Grid element write access through the same
always-in-bounds wrapped offset. -/
def Grid.set (G : Grid) (u v w : ℤ) (x : ℚ) : Grid :=
  { G with data := G.data.set (G.index u v w) x,
           hdata := by simp [G.hdata] }

theorem Grid.index_add_mul (G : Grid) (u v w a b c : ℤ) :
    G.index (u + a * (G.nu : ℤ)) (v + b * (G.nv : ℤ)) (w + c * (G.nw : ℤ))
      = G.index u v w := by
  unfold Grid.index
  rw [Int.add_mul_emod_self, Int.add_mul_emod_self, Int.add_mul_emod_self]

theorem Grid.at_add_mul (G : Grid) (u v w a b c : ℤ) :
    G.at_ (u + a * (G.nu : ℤ)) (v + b * (G.nv : ℤ)) (w + c * (G.nw : ℤ))
      = G.at_ u v w := by
  simp [Grid.at_, Grid.index_add_mul]

theorem Grid.at_set_self (G : Grid) (u v w : ℤ) (x : ℚ) :
    (G.set u v w x).at_ u v w = x := by
  have hlt : G.index u v w < G.data.length := by
    simpa [G.hdata] using G.index_lt u v w
  show (G.data.set (G.index u v w) x).getD (G.index u v w) 0 = x
  rw [List.getD_eq_getElem?_getD, List.getElem?_set_self (by simpa using hlt)]
  rfl

/-- C9: grid element access at/set accepts every integer triple, including
negative indices, reducing each index modulo its axis extent before storage
access: the storage offset is always strictly below the data size (so no
out-of-bounds access can be raised), indices shifted by whole multiples of
an extent address the same element, and a set followed by at at the same
(arbitrary integer) triple reads back the written value. -/
theorem grid_integer_access_safe (G : Grid) (u v w a b c : ℤ) (x : ℚ) :
    G.index u v w < G.nu * G.nv * G.nw ∧
      G.at_ (u + a * (G.nu : ℤ)) (v + b * (G.nv : ℤ)) (w + c * (G.nw : ℤ))
        = G.at_ u v w ∧
      (G.set u v w x).at_ u v w = x :=
  ⟨G.index_lt u v w, G.at_add_mul u v w a b c, G.at_set_self u v w x⟩

/-- Modelled from the spec: steps 2 to 6 of the interpolation algorithm,
starting from fractional coordinates: scale by the extents to continuous
grid coordinates, split into integer floor and remainder in [0,1), fetch the
eight wrapped corner samples and blend them trilinearly. -/
def Grid.interpolate_frac (G : Grid) (f : Vec3) : ℚ :=
  let fu := f.x * (G.nu : ℚ)
  let fv := f.y * (G.nv : ℚ)
  let fw := f.z * (G.nw : ℚ)
  let u0 := ⌊fu⌋
  let v0 := ⌊fv⌋
  let w0 := ⌊fw⌋
  let tu := fu - (u0 : ℚ)
  let tv := fv - (v0 : ℚ)
  let tw := fw - (w0 : ℚ)
  (1 - tu) * (1 - tv) * (1 - tw) * G.at_ u0 v0 w0
    + tu * (1 - tv) * (1 - tw) * G.at_ (u0 + 1) v0 w0
    + (1 - tu) * tv * (1 - tw) * G.at_ u0 (v0 + 1) w0
    + (1 - tu) * (1 - tv) * tw * G.at_ u0 v0 (w0 + 1)
    + tu * tv * (1 - tw) * G.at_ (u0 + 1) (v0 + 1) w0
    + tu * (1 - tv) * tw * G.at_ (u0 + 1) v0 (w0 + 1)
    + (1 - tu) * tv * tw * G.at_ u0 (v0 + 1) (w0 + 1)
    + tu * tv * tw * G.at_ (u0 + 1) (v0 + 1) (w0 + 1)

/-- Modelled from the spec: the Interpolator contract interpolate(grid,
position), gemmi's Grid::interpolate_value, which grid.hpp (not in the
repository sources) implements: convert the Cartesian position to fractional
coordinates via the grid's UnitCell, then blend the surrounding eight
wrapped samples trilinearly. -/
def Grid.interpolate (G : Grid) (p : Vec3) : ℚ :=
  G.interpolate_frac (G.cell.fractionalize p)

theorem floor_add_int_mul_nat (q : ℚ) (n : ℤ) (m : ℕ) :
    ⌊(q + (n : ℚ)) * (m : ℚ)⌋ = ⌊q * (m : ℚ)⌋ + n * (m : ℤ) := by
  have h : (q + (n : ℚ)) * (m : ℚ) = q * (m : ℚ) + ((n * (m : ℤ) : ℤ) : ℚ) := by
    push_cast
    ring
  rw [h, Int.floor_add_int]

theorem Grid.interpolate_frac_add_int (G : Grid) (f : Vec3) (na nb nc : ℤ) :
    G.interpolate_frac ⟨f.x + (na : ℚ), f.y + (nb : ℚ), f.z + (nc : ℚ)⟩
      = G.interpolate_frac f := by
  simp only [Grid.interpolate_frac, floor_add_int_mul_nat]
  have htx : (f.x + (na : ℚ)) * (G.nu : ℚ) - ((⌊f.x * (G.nu : ℚ)⌋ + na * (G.nu : ℤ) : ℤ) : ℚ)
      = f.x * (G.nu : ℚ) - ((⌊f.x * (G.nu : ℚ)⌋ : ℤ) : ℚ) := by
    push_cast
    ring
  have hty : (f.y + (nb : ℚ)) * (G.nv : ℚ) - ((⌊f.y * (G.nv : ℚ)⌋ + nb * (G.nv : ℤ) : ℤ) : ℚ)
      = f.y * (G.nv : ℚ) - ((⌊f.y * (G.nv : ℚ)⌋ : ℤ) : ℚ) := by
    push_cast
    ring
  have htz : (f.z + (nc : ℚ)) * (G.nw : ℚ) - ((⌊f.z * (G.nw : ℚ)⌋ + nc * (G.nw : ℤ) : ℤ) : ℚ)
      = f.z * (G.nw : ℚ) - ((⌊f.z * (G.nw : ℚ)⌋ : ℤ) : ℚ) := by
    push_cast
    ring
  rw [htx, hty, htz]
  have hu1 : ⌊f.x * (G.nu : ℚ)⌋ + na * (G.nu : ℤ) + 1
      = (⌊f.x * (G.nu : ℚ)⌋ + 1) + na * (G.nu : ℤ) := by ring
  have hv1 : ⌊f.y * (G.nv : ℚ)⌋ + nb * (G.nv : ℤ) + 1
      = (⌊f.y * (G.nv : ℚ)⌋ + 1) + nb * (G.nv : ℤ) := by ring
  have hw1 : ⌊f.z * (G.nw : ℚ)⌋ + nc * (G.nw : ℤ) + 1
      = (⌊f.z * (G.nw : ℚ)⌋ + 1) + nc * (G.nw : ℤ) := by ring
  rw [hu1, hv1, hw1]
  simp only [Grid.at_add_mul]

theorem UnitCell.fractionalize_add (c : UnitCell) (u v : Vec3) :
    c.fractionalize (u.add v) = (c.fractionalize u).add (c.fractionalize v) :=
  Mat3.mulVec_add c.orth.inv u v

theorem UnitCell.fractionalize_orthogonalize (c : UnitCell) (v : Vec3)
    (h : c.valid) : c.fractionalize (c.orthogonalize v) = v :=
  Mat3.inv_mulVec_cancel c.orth v h

/-- C7: interpolation is periodic: for every grid with a validly constructed
cell, shifting the query position by any integer combination of the lattice
vectors (the orthogonalized integer vector) leaves the interpolated value
unchanged. -/
theorem interpolate_periodic (G : Grid) (p : Vec3) (na nb nc : ℤ)
    (h : G.cell.valid) :
    G.interpolate (p.add (G.cell.orthogonalize ⟨(na : ℚ), (nb : ℚ), (nc : ℚ)⟩))
      = G.interpolate p := by
  unfold Grid.interpolate
  rw [UnitCell.fractionalize_add,
    UnitCell.fractionalize_orthogonalize G.cell _ h]
  have hadd : (G.cell.fractionalize p).add ⟨(na : ℚ), (nb : ℚ), (nc : ℚ)⟩
      = ⟨(G.cell.fractionalize p).x + (na : ℚ),
         (G.cell.fractionalize p).y + (nb : ℚ),
         (G.cell.fractionalize p).z + (nc : ℚ)⟩ := rfl
  rw [hadd, Grid.interpolate_frac_add_int]

/-- A concrete 2 x 1 x 1 example grid on the identity unit cell, with sample
values 0 and 1. -/
def gridEx : Grid :=
  ⟨cellI, 2, 1, 1, by norm_num, by norm_num, by norm_num, [0, 1], by norm_num⟩

/-- Witness for C7: the concrete example grid has a valid cell, and shifting
a query position by one whole lattice vector leaves the sampled value
unchanged. -/
theorem interpolate_periodic_witness :
    gridEx.cell.valid ∧
      gridEx.interpolate
          ((Vec3.mk (1/4) 0 0).add (gridEx.cell.orthogonalize ⟨(1 : ℚ), 0, 0⟩))
        = gridEx.interpolate ⟨1/4, 0, 0⟩ := by
  have h : gridEx.cell.valid := by
    norm_num [gridEx, cellI, UnitCell.valid, Mat3.det, Mat3.identity]
  refine ⟨h, ?_⟩
  have := interpolate_periodic gridEx ⟨1/4, 0, 0⟩ 1 0 0 h
  simpa using this

/-- Association-list model of std::map with std::vector<int> keys: lookup
returns the first entry with the given key.  The claims depend only on
lookup results and key sets, not on the sorted iteration order of the C++
container, so insertion order is kept instead. -/
def mapLookup {V : Type} (k : List ℤ) : List (List ℤ × V) → Option V
  | [] => none
  | e :: rest => if e.1 = k then some e.2 else mapLookup k rest

/-- std::map::insert semantics: the pair is added only when the key is not
already present; an existing entry is never overwritten and the duplicate
pair is silently discarded. -/
def mapInsert {V : Type} (k : List ℤ) (v : V) (m : List (List ℤ × V)) :
    List (List ℤ × V) :=
  match mapLookup k m with
  | some _ => m
  | none => m ++ [(k, v)]

theorem mapLookup_append {V : Type} (k : List ℤ) (m1 m2 : List (List ℤ × V)) :
    mapLookup k (m1 ++ m2)
      = match mapLookup k m1 with
        | some v => some v
        | none => mapLookup k m2 := by
  induction m1 with
  | nil => simp [mapLookup]
  | cons e rest ih =>
      by_cases h : e.1 = k <;> simp [mapLookup, h, ih]

theorem mapLookup_insert {V : Type} (k kk : List ℤ) (v : V)
    (m : List (List ℤ × V)) :
    mapLookup k (mapInsert kk v m)
      = match mapLookup k m with
        | some w => some w
        | none => if kk = k then some v else none := by
  unfold mapInsert
  cases h : mapLookup kk m with
  | some w =>
      cases h2 : mapLookup k m with
      | some x => simp
      | none =>
          by_cases hk : kk = k
          · subst hk
            rw [h] at h2
            exact absurd h2 (by simp)
          · simp [hk]
  | none =>
      rw [mapLookup_append]
      cases h2 : mapLookup k m with
      | some x => simp
      | none => simp [mapLookup]

theorem mapLookup_eq_none_of_keys {V : Type} (k : List ℤ)
    (m : List (List ℤ × V)) (h : ∀ e ∈ m, e.1 ≠ k) : mapLookup k m = none := by
  induction m with
  | nil => rfl
  | cons e rest ih =>
      have h1 : e.1 ≠ k := h e (by simp)
      simp only [mapLookup, if_neg h1]
      exact ih fun x hx => h x (by simp [hx])

/-- Entries of a fold of mapInsert over a list are either entries of the
accumulator or pairs built from a list element by the key and value maps. -/
theorem mem_foldl_mapInsert {α V : Type} (kf : α → List ℤ) (vf : α → V)
    (l : List α) (acc : List (List ℤ × V)) (e : List ℤ × V)
    (he : e ∈ l.foldl (fun m x => mapInsert (kf x) (vf x) m) acc) :
    e ∈ acc ∨ ∃ x ∈ l, e = (kf x, vf x) := by
  induction l generalizing acc with
  | nil => exact Or.inl he
  | cons a rest ih =>
      rcases ih (mapInsert (kf a) (vf a) acc) he with hacc | ⟨x, hx, hex⟩
      · unfold mapInsert at hacc
        cases hmem : mapLookup (kf a) acc with
        | some w =>
            rw [hmem] at hacc
            exact Or.inl hacc
        | none =>
            rw [hmem] at hacc
            rcases List.mem_append.mp hacc with h1 | h2
            · exact Or.inl h1
            · right
              exact ⟨a, by simp, by simpa using h2⟩
      · right
        exact ⟨x, by simp [hx], hex⟩

/-- Lookup after a fold of mapInsert: an accumulator entry wins; otherwise
the first list element with the key wins (later duplicates are dropped). -/
theorem mapLookup_foldl_mapInsert {α V : Type} [DecidableEq α]
    (kf : α → List ℤ) (vf : α → V) (l : List α)
    (acc : List (List ℤ × V)) (k : List ℤ) :
    mapLookup k (l.foldl (fun m x => mapInsert (kf x) (vf x) m) acc)
      = match mapLookup k acc with
        | some w => some w
        | none => (l.find? fun x => kf x == k).map vf := by
  induction l generalizing acc with
  | nil =>
      cases h : mapLookup k acc <;> simp [List.find?, h]
  | cons a rest ih =>
      rw [List.foldl_cons, ih, mapLookup_insert]
      cases h : mapLookup k acc with
      | some w => simp
      | none =>
          by_cases hk : kf a = k
          · simp [List.find?, hk]
          · simp only [if_neg hk]
            have : (kf a == k) = false := by simpa using hk
            simp [List.find?, this]

namespace SampleCpp

/-- Embedding of get_sample_positions from the pybind11 binding file: rows
of the integer point array (as triples) are zipped with rows of the position
array; for row (a, b, c) paired with position p the inserted key is the
four-component vector {pt(i,0), pt(i,0), pt(i,1), pt(i,2)} = [a, a, b, c],
exactly as the source writes it, and the value is the Position built from
the position row. -/
def get_sample_positions (pts : List (ℤ × ℤ × ℤ)) (ps : List Vec3) :
    List (List ℤ × Vec3) :=
  (pts.zip ps).foldl
    (fun m e => mapInsert [e.1.1, e.1.1, e.1.2.1, e.1.2.2] e.2 m) []

/-- Embedding of the position-map overload of fill_array: for every cell
(i, j, k) of the I x J x K destination array, look the key {i, j, k} up with
std::map::operator[], which default-inserts a default-constructed Position
(0, 0, 0) when the key is missing, and write interpolate_value at the
resulting position.  The result is the ordered list of writes; since each
cell key is visited exactly once, the value each write reads through
operator[] equals a pure lookup with default (0, 0, 0). -/
def fill_array (I J K : ℕ) (m : List (List ℤ × Vec3)) (G : Grid) :
    List ((ℕ × ℕ × ℕ) × ℚ) :=
  (List.range I).flatMap fun i =>
    (List.range J).flatMap fun j =>
      (List.range K).map fun k =>
        ((i, j, k),
          G.interpolate ((mapLookup [(i : ℤ), (j : ℤ), (k : ℤ)] m).getD ⟨0, 0, 0⟩))

/-- Embedding of the value-map overload of fill_array: same triple loop,
but the map holds scalar values and operator[] default-inserts a
default-constructed T(), i.e. zero, for a missing cell key. -/
def fill_array_values (I J K : ℕ) (m : List (List ℤ × ℚ)) :
    List ((ℕ × ℕ × ℕ) × ℚ) :=
  (List.range I).flatMap fun i =>
    (List.range J).flatMap fun j =>
      (List.range K).map fun k =>
        ((i, j, k), (mapLookup [(i : ℤ), (j : ℤ), (k : ℤ)] m).getD 0)

/-- Embedding of get_point_position_map: pairs points[index] with
positions[index] and inserts each pair with std::map::insert, which keeps
the first occurrence of a key and silently drops later ones. -/
def get_point_position_map (points : List (List ℤ)) (positions : List (List ℚ)) :
    List (List ℤ × List ℚ) :=
  (points.zip positions).foldl (fun m e => mapInsert e.1 e.2 m) []

/-- Embedding of the sample binding: get_sample_positions on the two input
arrays, then fill_array over the destination array. -/
def sample (I J K : ℕ) (pts : List (ℤ × ℤ × ℤ)) (ps : List Vec3) (G : Grid) :
    List ((ℕ × ℕ × ℕ) × ℚ) :=
  fill_array I J K (get_sample_positions pts ps) G

end SampleCpp

namespace SampleHpp

/-- One iteration of the while loop in sample.hpp's get_sample_positions
(the map-to-map overload).  The loop state is the iterator position into the
map's entry sequence plus the result map built so far.  The body reads the
entry under the iterator, converts the position vector to a gemmi Position
and inserts it; as in the source, the iterator is never incremented, so the
position component is left unchanged.  When the iterator equals end (the
position has reached the entry count) the loop would exit. -/
def get_sample_positions_step (entries : List (List ℤ × List ℚ))
    (s : ℕ × List (List ℤ × Vec3)) : ℕ × List (List ℤ × Vec3) :=
  match entries[s.1]? with
  | some e =>
      (s.1, mapInsert e.1 ⟨e.2.getD 0 0, e.2.getD 1 0, e.2.getD 2 0⟩ s.2)
  | none => s

/-- Loop state of get_sample_positions after n iterations, starting from the
iterator at begin and an empty result map. -/
def get_sample_positions_state (entries : List (List ℤ × List ℚ)) :
    ℕ → ℕ × List (List ℤ × Vec3)
  | 0 => (0, [])
  | n + 1 => get_sample_positions_step entries (get_sample_positions_state entries n)

/-- The get_sample_positions loop terminates when some number of iterations
brings the iterator to end. -/
def get_sample_positions_terminates (entries : List (List ℤ × List ℚ)) : Prop :=
  ∃ n, entries.length ≤ (get_sample_positions_state entries n).1

/-- One iteration of the while loop in sample.hpp's sample_grid: the body
interpolates the grid at the entry's position and inserts the value under
the entry's key; as in the source, the iterator is never incremented. -/
def sample_grid_step (G : Grid) (entries : List (List ℤ × Vec3))
    (s : ℕ × List (List ℤ × ℚ)) : ℕ × List (List ℤ × ℚ) :=
  match entries[s.1]? with
  | some e => (s.1, mapInsert e.1 (G.interpolate e.2) s.2)
  | none => s

/-- Loop state of sample_grid after n iterations, starting from the iterator
at begin and an empty values map. -/
def sample_grid_state (G : Grid) (entries : List (List ℤ × Vec3)) :
    ℕ → ℕ × List (List ℤ × ℚ)
  | 0 => (0, [])
  | n + 1 => sample_grid_step G entries (sample_grid_state G entries n)

/-- The sample_grid loop terminates when some number of iterations brings
the iterator to end. -/
def sample_grid_terminates (G : Grid) (entries : List (List ℤ × Vec3)) : Prop :=
  ∃ n, entries.length ≤ (sample_grid_state G entries n).1

theorem get_sample_positions_step_fst (entries : List (List ℤ × List ℚ))
    (s : ℕ × List (List ℤ × Vec3)) :
    (get_sample_positions_step entries s).1 = s.1 := by
  unfold get_sample_positions_step
  cases h : entries[s.1]? <;> simp

theorem sample_grid_step_fst (G : Grid) (entries : List (List ℤ × Vec3))
    (s : ℕ × List (List ℤ × ℚ)) :
    (sample_grid_step G entries s).1 = s.1 := by
  unfold sample_grid_step
  cases h : entries[s.1]? <;> simp

theorem get_sample_positions_state_fst (entries : List (List ℤ × List ℚ))
    (n : ℕ) : (get_sample_positions_state entries n).1 = 0 := by
  induction n with
  | zero => rfl
  | succ n ih => rw [get_sample_positions_state, get_sample_positions_step_fst, ih]

theorem sample_grid_state_fst (G : Grid) (entries : List (List ℤ × Vec3))
    (n : ℕ) : (sample_grid_state G entries n).1 = 0 := by
  induction n with
  | zero => rfl
  | succ n ih => rw [sample_grid_state, sample_grid_step_fst, ih]

end SampleHpp

/-- C3: the while loops of get_sample_positions and sample_grid in
sample.hpp never advance their iterator, so each loop reaches its exit
condition for some iteration count exactly when the input map is empty; on
every non-empty input the iterator stays at begin forever. -/
theorem sample_hpp_loops_terminate_iff_empty (G : Grid)
    (e1 : List (List ℤ × Vec3)) (e2 : List (List ℤ × List ℚ)) :
    (SampleHpp.sample_grid_terminates G e1 ↔ e1 = []) ∧
      (SampleHpp.get_sample_positions_terminates e2 ↔ e2 = []) := by
  constructor
  · constructor
    · rintro ⟨n, hn⟩
      rw [SampleHpp.sample_grid_state_fst] at hn
      exact List.length_eq_zero.mp (by omega)
    · rintro rfl
      exact ⟨0, by simp⟩
  · constructor
    · rintro ⟨n, hn⟩
      rw [SampleHpp.get_sample_positions_state_fst] at hn
      exact List.length_eq_zero.mp (by omega)
    · rintro rfl
      exact ⟨0, by simp⟩

/-- C2 (code bug): sample_grid never returns on a non-empty input map, here
shown on the concrete singleton map sending key [0,0,0] to Position
(1,2,3) over the example grid: no number of loop iterations reaches the
exit condition, so sample_grid cannot return any mapping at all, let alone
one with the input's key set. -/
theorem sample_grid_diverges_on_concrete_input :
    ¬ SampleHpp.sample_grid_terminates gridEx [([0, 0, 0], ⟨1, 2, 3⟩)] := by
  rintro ⟨n, hn⟩
  rw [SampleHpp.sample_grid_state_fst] at hn
  simp at hn

/-- Every entry of get_sample_positions comes from an input row (a, b, c)
and carries the four-component key [a, a, b, c]. -/
theorem get_sample_positions_entry_shape (pts : List (ℤ × ℤ × ℤ))
    (ps : List Vec3) (e : List ℤ × Vec3)
    (he : e ∈ SampleCpp.get_sample_positions pts ps) :
    ∃ r ∈ pts, e.1 = [r.1, r.1, r.2.1, r.2.2] := by
  rcases mem_foldl_mapInsert
      (fun x : (ℤ × ℤ × ℤ) × Vec3 => [x.1.1, x.1.1, x.1.2.1, x.1.2.2])
      (fun x => x.2) (pts.zip ps) [] e (by exact he) with h | ⟨x, hx, hex⟩
  · simp at h
  · exact ⟨x.1, (List.of_mem_zip hx).1, by rw [hex]⟩

/-- No three-component key is ever present in a map built by
get_sample_positions: all its keys have four components. -/
theorem get_sample_positions_lookup3_none (pts : List (ℤ × ℤ × ℤ))
    (ps : List Vec3) (i j k : ℤ) :
    mapLookup [i, j, k] (SampleCpp.get_sample_positions pts ps) = none := by
  apply mapLookup_eq_none_of_keys
  intro e he hkey
  rcases get_sample_positions_entry_shape pts ps e he with ⟨r, _, hr⟩
  rw [hr] at hkey
  exact absurd (congrArg List.length hkey) (by simp)

/-- C6: the key that get_sample_positions inserts for an input row (a, b, c)
is the four-component vector [a, a, b, c] -- the first point index
duplicated -- not the 3-tuple (a, b, c); consequently no key it produces
ever equals a three-component cell key [i, j, k] of the kind fill_array
looks up, so every such lookup misses. -/
theorem get_sample_positions_key_is_duplicated_quadruple
    (pts : List (ℤ × ℤ × ℤ)) (ps : List Vec3) :
    (∀ e ∈ SampleCpp.get_sample_positions pts ps,
        ∃ r ∈ pts, e.1 = [r.1, r.1, r.2.1, r.2.2]) ∧
      ∀ i j k : ℤ,
        mapLookup [i, j, k] (SampleCpp.get_sample_positions pts ps) = none :=
  ⟨fun e he => get_sample_positions_entry_shape pts ps e he,
   fun i j k => get_sample_positions_lookup3_none pts ps i j k⟩

/-- Witness for C6 at a concrete input row: the binding stores the key
[1,1,2,3] for point row (1,2,3), so looking up the cell key [1,2,3]
misses. -/
theorem get_sample_positions_key_is_duplicated_quadruple_witness :
    mapLookup [1, 2, 3]
        (SampleCpp.get_sample_positions [((1 : ℤ), (2 : ℤ), (3 : ℤ))]
          [⟨5, 6, 7⟩]) = none :=
  (get_sample_positions_key_is_duplicated_quadruple
    [((1 : ℤ), (2 : ℤ), (3 : ℤ))] [⟨5, 6, 7⟩]).2 1 2 3

/-- The cells fill_array writes to, in write order, are exactly the triple
product of the index ranges. -/
theorem fill_array_keys (I J K : ℕ) (m : List (List ℤ × Vec3)) (G : Grid) :
    (SampleCpp.fill_array I J K m G).map Prod.fst
      = (List.range I) ×ˢ ((List.range J) ×ˢ (List.range K)) := by
  show _ = (List.range I).flatMap
    fun i => (((List.range J).flatMap fun j => (List.range K).map
      fun k => (j, k)).map fun p => (i, p))
  simp [SampleCpp.fill_array, List.map_flatMap, List.map_map, Function.comp_def]

/-- Every write of fill_array is at an in-range cell (i, j, k) and carries
the interpolated value at that cell's looked-up position (defaulting to the
origin when the key is absent). -/
theorem fill_array_write_shape (I J K : ℕ) (m : List (List ℤ × Vec3))
    (G : Grid) (e : (ℕ × ℕ × ℕ) × ℚ) (he : e ∈ SampleCpp.fill_array I J K m G) :
    ∃ i j k, i < I ∧ j < J ∧ k < K ∧
      e = ((i, j, k),
        G.interpolate ((mapLookup [(i : ℤ), (j : ℤ), (k : ℤ)] m).getD ⟨0, 0, 0⟩)) := by
  unfold SampleCpp.fill_array at he
  rcases List.mem_flatMap.mp he with ⟨i, hi, he2⟩
  rcases List.mem_flatMap.mp he2 with ⟨j, hj, he3⟩
  rcases List.mem_map.mp he3 with ⟨k, hk, hek⟩
  exact ⟨i, j, k, List.mem_range.mp hi, List.mem_range.mp hj,
    List.mem_range.mp hk, hek.symm⟩

/-- fill_array performs a write for a given in-range cell. -/
theorem fill_array_mem_of_lt (I J K : ℕ) (m : List (List ℤ × Vec3)) (G : Grid)
    (i j k : ℕ) (hi : i < I) (hj : j < J) (hk : k < K) :
    ((i, j, k),
        G.interpolate ((mapLookup [(i : ℤ), (j : ℤ), (k : ℤ)] m).getD ⟨0, 0, 0⟩))
      ∈ SampleCpp.fill_array I J K m G := by
  unfold SampleCpp.fill_array
  refine List.mem_flatMap.mpr ⟨i, List.mem_range.mpr hi, ?_⟩
  refine List.mem_flatMap.mpr ⟨j, List.mem_range.mpr hj, ?_⟩
  exact List.mem_map.mpr ⟨k, List.mem_range.mpr hk, rfl⟩

/-- fill_array_values performs a write for a given in-range cell. -/
theorem fill_array_values_mem_of_lt (I J K : ℕ) (m : List (List ℤ × ℚ))
    (i j k : ℕ) (hi : i < I) (hj : j < J) (hk : k < K) :
    ((i, j, k), (mapLookup [(i : ℤ), (j : ℤ), (k : ℤ)] m).getD 0)
      ∈ SampleCpp.fill_array_values I J K m := by
  unfold SampleCpp.fill_array_values
  refine List.mem_flatMap.mpr ⟨i, List.mem_range.mpr hi, ?_⟩
  refine List.mem_flatMap.mpr ⟨j, List.mem_range.mpr hj, ?_⟩
  exact List.mem_map.mpr ⟨k, List.mem_range.mpr hk, rfl⟩

/-- C1 (amended): the sample binding writes into every cell of the I x J x K
destination array exactly once (the written cells are pairwise distinct and
are exactly the in-range triples), but the value written at every cell is
interpolate at the default-constructed Position (0, 0, 0), not at the
caller-supplied position: the 4-component keys built by
get_sample_positions never match the 3-component cell keys fill_array looks
up. -/
theorem sample_writes_each_cell_once_at_origin (pts : List (ℤ × ℤ × ℤ))
    (ps : List Vec3) (G : Grid) (I J K : ℕ) :
    ((SampleCpp.sample I J K pts ps G).map Prod.fst).Nodup ∧
      (∀ c : ℕ × ℕ × ℕ, c ∈ (SampleCpp.sample I J K pts ps G).map Prod.fst ↔
          c.1 < I ∧ c.2.1 < J ∧ c.2.2 < K) ∧
      ∀ e ∈ SampleCpp.sample I J K pts ps G, e.2 = G.interpolate ⟨0, 0, 0⟩ := by
  refine ⟨?_, ?_, ?_⟩
  · rw [SampleCpp.sample, fill_array_keys]
    exact List.Nodup.product (List.nodup_range I)
      (List.Nodup.product (List.nodup_range J) (List.nodup_range K))
  · intro c
    obtain ⟨a, b, cc⟩ := c
    rw [SampleCpp.sample, fill_array_keys]
    simp [List.mem_product]
  · intro e he
    rcases fill_array_write_shape I J K _ G e he with ⟨i, j, k, _, _, _, hek⟩
    rw [hek, get_sample_positions_lookup3_none]
    rfl

/-- Witness for C1 (amended) at a concrete input: the single write of a
1 x 1 x 1 sample is at the value interpolated at the origin. -/
theorem sample_writes_each_cell_once_at_origin_witness :
    ∀ e ∈ SampleCpp.sample 1 1 1 [((5 : ℤ), 6, 7)] [⟨9, 9, 9⟩] gridEx,
      e.2 = gridEx.interpolate ⟨0, 0, 0⟩ :=
  (sample_writes_each_cell_once_at_origin [((5 : ℤ), 6, 7)] [⟨9, 9, 9⟩]
    gridEx 1 1 1).2.2

/-- C1 (counterexample): on the example grid, with the single destination
cell (0,0,0) mapped by the caller to the Cartesian position (1/2, 0, 0),
the sample binding writes the value 0 -- interpolate at the default origin
position -- although interpolate at the cell's caller-supplied position is
1.  The claim that each cell receives interpolate at its caller-supplied
position is therefore false. -/
theorem sample_value_mismatch_counterexample :
    SampleCpp.sample 1 1 1 [((0 : ℤ), 0, 0)] [⟨1/2, 0, 0⟩] gridEx
        = [((0, 0, 0), gridEx.interpolate ⟨0, 0, 0⟩)] ∧
      gridEx.interpolate ⟨0, 0, 0⟩ = 0 ∧
      gridEx.interpolate ⟨1/2, 0, 0⟩ = 1 ∧ (0 : ℚ) ≠ 1 := by
  refine ⟨rfl, ?_, ?_, by norm_num⟩
  · norm_num [Grid.interpolate, Grid.interpolate_frac, UnitCell.fractionalize,
      gridEx, cellI, Mat3.identity, Mat3.inv, Mat3.det, Mat3.mulVec,
      Grid.at_, Grid.index, List.getD]
  · norm_num [Grid.interpolate, Grid.interpolate_frac, UnitCell.fractionalize,
      gridEx, cellI, Mat3.identity, Mat3.inv, Mat3.det, Mat3.mulVec,
      Grid.at_, Grid.index, List.getD]

/-- C4 (counterexample): the conceptual keyed input contains the key
[0,0,0] twice, mapped to the different positions [1,2,3] and [4,5,6].
get_point_position_map returns normally -- std::map::insert keeps the first
occurrence and silently drops the second -- so no ValueError (or any other
error) identifying the ambiguous key is ever raised. -/
theorem get_point_position_map_duplicate_counterexample :
    SampleCpp.get_point_position_map [[0, 0, 0], [0, 0, 0]]
        [[1, 2, 3], [4, 5, 6]]
      = [([0, 0, 0], [1, 2, 3])] := rfl

/-- C4 (amended): on duplicate keys the keyed batch entry point raises
nothing: for every key, the map built by get_point_position_map holds the
position of the first input row with that key, and every later duplicate
row is silently dropped. -/
theorem get_point_position_map_keeps_first_occurrence
    (points : List (List ℤ)) (positions : List (List ℚ)) (k : List ℤ) :
    mapLookup k (SampleCpp.get_point_position_map points positions)
      = ((points.zip positions).find? fun e => e.1 == k).map Prod.snd := by
  have h := mapLookup_foldl_mapInsert (V := List ℚ) Prod.fst Prod.snd
    (points.zip positions) [] k
  simpa [mapLookup, SampleCpp.get_point_position_map] using h

/-- C5 (counterexample): with an empty key-to-position map, the iteration
domain implied by the query point set is empty, so the 1 x 1 x 1
destination array's shape does not match it; yet fill_array raises no
ShapeMismatchError: it returns normally, silently writing the value
interpolated at the default-constructed Position (0, 0, 0) into the cell
whose key is missing. -/
theorem fill_array_no_shape_error_counterexample :
    SampleCpp.fill_array 1 1 1 [] gridEx
      = [((0, 0, 0), gridEx.interpolate ⟨0, 0, 0⟩)] := rfl

theorem length_flatMap_const {α β : Type} (l : List α) (f : α → List β)
    (c : ℕ) (h : ∀ a ∈ l, (f a).length = c) :
    (l.flatMap f).length = l.length * c := by
  induction l with
  | nil => simp
  | cons a rest ih =>
      simp only [List.flatMap_cons, List.length_append, List.length_cons]
      rw [h a (by simp), ih fun x hx => h x (by simp [hx])]
      ring

/-- C5 (amended): the array-driven variant never raises on a shape
mismatch: whatever the supplied key-to-position map (including maps missing
some or all cell keys), fill_array performs exactly I*J*K writes, one per
destination cell, interpolating missing cells at the default Position
(0, 0, 0). -/
theorem fill_array_always_writes_full_array (I J K : ℕ)
    (m : List (List ℤ × Vec3)) (G : Grid) :
    (SampleCpp.fill_array I J K m G).length = I * J * K := by
  unfold SampleCpp.fill_array
  rw [length_flatMap_const _ _ (J * K)]
  · rw [List.length_range]
    ring
  · intro i _
    rw [length_flatMap_const _ _ K]
    · rw [List.length_range]
    · intro j _
      simp

/-- C10: for a destination cell key {i, j, k} absent from the supplied map,
neither fill_array overload raises: operator[] default-inserts the missing
key, so the position-map overload writes the value interpolated at the
default-constructed Position (0, 0, 0) into that cell, and the value-map
overload writes a default-constructed scalar, i.e. 0. -/
theorem fill_array_missing_key_writes_defaults (G : Grid)
    (mp : List (List ℤ × Vec3)) (mv : List (List ℤ × ℚ)) (I J K i j k : ℕ)
    (hi : i < I) (hj : j < J) (hk : k < K)
    (hp : mapLookup [(i : ℤ), (j : ℤ), (k : ℤ)] mp = none)
    (hv : mapLookup [(i : ℤ), (j : ℤ), (k : ℤ)] mv = none) :
    ((i, j, k), G.interpolate ⟨0, 0, 0⟩) ∈ SampleCpp.fill_array I J K mp G ∧
      ((i, j, k), (0 : ℚ)) ∈ SampleCpp.fill_array_values I J K mv := by
  constructor
  · have h := fill_array_mem_of_lt I J K mp G i j k hi hj hk
    rw [hp] at h
    exact h
  · have h := fill_array_values_mem_of_lt I J K mv i j k hi hj hk
    rw [hv] at h
    exact h

/-- Witness for C10 on the 1 x 1 x 1 array with empty maps: the missing
cell (0,0,0) receives interpolate at the origin from the position-map
overload and 0 from the value-map overload. -/
theorem fill_array_missing_key_writes_defaults_witness :
    (0 < 1 ∧ mapLookup [(0 : ℤ), 0, 0] ([] : List (List ℤ × Vec3)) = none ∧
        mapLookup [(0 : ℤ), 0, 0] ([] : List (List ℤ × ℚ)) = none) ∧
      ((0, 0, 0), gridEx.interpolate ⟨0, 0, 0⟩)
          ∈ SampleCpp.fill_array 1 1 1 [] gridEx ∧
        ((0, 0, 0), (0 : ℚ)) ∈ SampleCpp.fill_array_values 1 1 1 [] :=
  ⟨⟨Nat.one_pos, rfl, rfl⟩,
   fill_array_missing_key_writes_defaults gridEx [] [] 1 1 1 0 0 0
     Nat.one_pos Nat.one_pos Nat.one_pos rfl rfl⟩
